import Mathlib

/-
Verification development for the microbus library (src/microbus.hpp):
an in-process publish/subscribe event bus plus a single-worker event loop.

The event bus (class event_bus) is embedded as a functional state
`event_bus H`: the field subscribers_ models the
unordered_map<string, vector<pair<int, handler_ptr>>> as an association
list keyed by event name, and next_id_ models the int counter.  Handlers
are type-erased in the source, so the handler payload is an opaque type
parameter H; invoking a handler is recorded in a trace rather than
executed.  The event loop (class event_loop) is embedded as a small-step
transition system `loop_state T` / `act T` whose worker actions mirror the
body of process_event_loop, with the position of the worker thread made
explicit (a task it has dequeued but not yet finished running).
-/

namespace Microbus

/-- Association list lookup: first value stored under key k, if any.
Models unordered_map find/count followed by operator[] access. -/
def lookupKey {β : Type} : List (String × β) → String → Option β
  | [], _ => none
  | (k', v) :: rest, k => if k' = k then some v else lookupKey rest k

/-- Association list membership test, models unordered_map count(k) != 0. -/
def containsKey {β : Type} (m : List (String × β)) (k : String) : Bool :=
  (lookupKey m k).isSome

/-- Replace the value stored under key k (no effect when k is absent).
Models assignment through an existing unordered_map entry. -/
def setKey {β : Type} : List (String × β) → String → β → List (String × β)
  | [], _, _ => []
  | (k', v) :: rest, k, w =>
    if k' = k then (k', w) :: setKey rest k w else (k', v) :: setKey rest k w

/-- Remove the entry stored under key k.  Models unordered_map erase(k). -/
def eraseKey {β : Type} : List (String × β) → String → List (String × β)
  | [], _ => []
  | (k', v) :: rest, k =>
    if k' = k then eraseKey rest k else (k', v) :: eraseKey rest k

/-- Append entry e to the vector stored under key k, default-constructing
the vector when k is absent.  Models subscribers_[event_name].emplace_back. -/
def addHandler {β : Type} : List (String × List β) → String → β → List (String × List β)
  | [], k, e => [(k, [e])]
  | (k', v) :: rest, k, e =>
    if k' = k then (k', v ++ [e]) :: rest else (k', v) :: addHandler rest k e

/-- State of class event_bus: the handler registry subscribers_ (event name
to insertion-ordered vector of (subscription id, handler)) and the counter
next_id_.  H is the opaque type-erased handler payload. -/
structure event_bus (H : Type) where
  subscribers_ : List (String × List (Nat × H))
  next_id_ : Nat
deriving DecidableEq

/-- A freshly constructed bus: empty registry, next_id_ = 0. -/
def event_bus.empty {H : Type} : event_bus H := ⟨[], 0⟩

/-- event_bus::subscribe: allocates id = next_id_++ and appends (id, handler)
at the tail of the vector for event_name; returns the id and the new state. -/
def subscribe {H : Type} (b : event_bus H) (event_name : String) (handler : H) :
    Nat × event_bus H :=
  let id := b.next_id_
  (id, { subscribers_ := addHandler b.subscribers_ event_name (id, handler),
         next_id_ := b.next_id_ + 1 })

/-- event_bus::unsubscribe: when event_name is present, remove every entry
whose id matches (remove_if/erase), and drop the event_name entry when the
vector becomes empty; otherwise do nothing. -/
def unsubscribe {H : Type} (b : event_bus H) (event_name : String) (id : Nat) :
    event_bus H :=
  match lookupKey b.subscribers_ event_name with
  | none => b
  | some handlers =>
    let remaining := handlers.filter (fun p => !(p.1 == id))
    if remaining.isEmpty then
      { b with subscribers_ := eraseKey b.subscribers_ event_name }
    else
      { b with subscribers_ := setKey b.subscribers_ event_name remaining }

/-- event_bus::trigger: when event_name is present, invoke every registered
handler in vector order, each with the same argument tuple.  The returned
trace lists each invoked (id, handler) entry with the argument it received;
the second component is the bus state after the call. -/
def trigger {H A : Type} (b : event_bus H) (event_name : String) (arg : A) :
    List ((Nat × H) × A) × event_bus H :=
  match lookupKey b.subscribers_ event_name with
  | none => ([], b)
  | some handlers => (handlers.map (fun e => (e, arg)), b)

/-- event_bus::trigger_impl: same dispatch as trigger but over an opaque
payload pointer (type parameter P), used by the event loop. -/
def trigger_impl {H P : Type} (b : event_bus H) (event_name : String) (args : P) :
    List ((Nat × H) × P) × event_bus H :=
  match lookupKey b.subscribers_ event_name with
  | none => ([], b)
  | some handlers => (handlers.map (fun e => (e, args)), b)

/-- event_bus::clear: drops the whole registry; next_id_ is untouched. -/
def clear {H : Type} (b : event_bus H) : event_bus H :=
  { subscribers_ := [], next_id_ := b.next_id_ }

/-- The vector currently registered for an event name (empty when absent). -/
def entriesOf {H : Type} (b : event_bus H) (event_name : String) : List (Nat × H) :=
  (lookupKey b.subscribers_ event_name).getD []

/-- The subscription ids currently registered for an event name. -/
def idsOf {H : Type} (b : event_bus H) (event_name : String) : List Nat :=
  (entriesOf b event_name).map Prod.fst

/-- One public bus operation, for reasoning about arbitrary call sequences. -/
inductive Op (H A : Type) where
  | subscribeOp (event_name : String) (handler : H)
  | unsubscribeOp (event_name : String) (id : Nat)
  | triggerOp (event_name : String) (arg : A)
  | clearOp

/-- Apply one operation to a bus state (discarding trigger traces and
returned ids, which are recovered separately). -/
def applyOp {H A : Type} (b : event_bus H) : Op H A → event_bus H
  | .subscribeOp n h => (subscribe b n h).2
  | .unsubscribeOp n i => unsubscribe b n i
  | .triggerOp n a => (trigger b n a).2
  | .clearOp => clear b

/-- Apply a sequence of operations left to right. -/
def applyOps {H A : Type} (b : event_bus H) (ops : List (Op H A)) : event_bus H :=
  ops.foldl applyOp b

/-- The subscription ids returned by the subscribe calls of a sequence,
in call order. -/
def issuedIds {H A : Type} (b : event_bus H) : List (Op H A) → List Nat
  | [] => []
  | .subscribeOp n h :: rest =>
      (subscribe b n h).1 :: issuedIds (applyOp b (Op.subscribeOp (A := A) n h)) rest
  | op :: rest => issuedIds (applyOp b op) rest

/-- Number of subscribe calls in a sequence. -/
def subCount {H A : Type} : List (Op H A) → Nat
  | [] => 0
  | .subscribeOp _ _ :: rest => 1 + subCount rest
  | _ :: rest => subCount rest

/-- Registry invariant: a present event name maps to a non-empty vector. -/
def Invariant {H : Type} (b : event_bus H) : Prop :=
  ∀ k v, lookupKey b.subscribers_ k = some v → v ≠ []

/-
Event loop embedding.  State of class event_loop, with the position of
the single worker thread made explicit: executing_ holds the task the
worker has popped from the queue (line 263) but whose call event_task()
(line 267) has not yet returned; worker_exited_ records that the worker
took the break at line 260; executed_ is the trace of tasks whose
execution has completed, in completion order.  T is the task payload
(the std::function<void()> closures are opaque to the loop).
-/
structure loop_state (T : Type) where
  async_event_queue_ : List T
  stop_flag_ : Bool
  executing_ : Option T
  worker_exited_ : Bool
  executed_ : List T
deriving DecidableEq

/-- State right after the event_loop constructor: empty queue,
stop_flag_ = false, worker blocked with nothing dequeued. -/
def initState (T : Type) : loop_state T := ⟨[], false, none, false, []⟩

/-- One atomic step of a client thread or of the worker thread.  The worker
actions are the pieces of one iteration of process_event_loop separated by
its lock boundaries: popping the front task under queue_mutex_, the
event_task() call outside the lock, and the break when the stop flag is
observed with an empty queue. -/
inductive act (T : Type) where
  | enqueue_event (t : T)
  | stop
  | worker_dequeue
  | worker_run_task
  | worker_exit
deriving DecidableEq

/-- Apply one action; none means the action is not enabled in this state
(its guard in the source does not hold, or the worker thread is gone). -/
def applyAct {T : Type} (s : loop_state T) : act T → Option (loop_state T)
  | .enqueue_event t =>
      some { s with async_event_queue_ := s.async_event_queue_ ++ [t] }
  | .stop => some { s with stop_flag_ := true }
  | .worker_dequeue =>
      if s.worker_exited_ then none else
      match s.executing_ with
      | some _ => none
      | none =>
        match s.async_event_queue_ with
        | [] => none
        | t :: rest => some { s with async_event_queue_ := rest, executing_ := some t }
  | .worker_run_task =>
      if s.worker_exited_ then none else
      match s.executing_ with
      | none => none
      | some t => some { s with executing_ := none, executed_ := s.executed_ ++ [t] }
  | .worker_exit =>
      if s.worker_exited_ then none else
      match s.executing_ with
      | some _ => none
      | none =>
        if s.stop_flag_ && s.async_event_queue_.isEmpty then
          some { s with worker_exited_ := true }
        else none

/-- Run a sequence of actions, failing when one is not enabled. -/
def applyActs {T : Type} (s : loop_state T) : List (act T) → Option (loop_state T)
  | [] => some s
  | a :: rest =>
    match applyAct s a with
    | none => none
    | some s' => applyActs s' rest

/-- The predicate wait_until_finished waits on (lines 221-224): it inspects
only emptiness of async_event_queue_, so the call returns as soon as this
is true. -/
def wait_pred {T : Type} (s : loop_state T) : Bool :=
  s.async_event_queue_.isEmpty

/-- Tasks enqueued by an action sequence, in enqueue order. -/
def enqueuedOf {T : Type} : List (act T) → List T
  | [] => []
  | .enqueue_event t :: rest => t :: enqueuedOf rest
  | _ :: rest => enqueuedOf rest

/-- All loop-side work still pending or done, in FIFO position order:
completed tasks, then the task being executed (if any), then the queue. -/
def taskLine {T : Type} (s : loop_state T) : List T :=
  s.executed_ ++ s.executing_.toList ++ s.async_event_queue_

/-- The worker-only schedule that drains a queue of known length after
stop: pop and run each task, then observe stop with an empty queue. -/
def drainActs {T : Type} : List T → List (act T)
  | [] => [act.worker_exit]
  | _ :: rest => act.worker_dequeue :: act.worker_run_task :: drainActs rest

/-
Exception model.  A task or handler body either returns normally or raises
an exception of type E; this is the behavior of the std::function bodies,
which the loop and the bus run without any try/catch.
-/

/-- The worker of process_event_loop running a queue of tasks identified by
ids, each task either completing or raising.  There is no try/catch around
the event_task() call at line 267, so the first raising task lets the
exception escape process_event_loop and ends processing: the result is the
ids of the tasks that completed, and the exception that escaped, if any. -/
def process_tasks {E : Type} : List (Nat × Except E Unit) → List Nat × Option E
  | [] => ([], none)
  | (i, Except.ok _) :: rest =>
    let r := process_tasks rest
    (i :: r.1, r.2)
  | (_, Except.error e) :: _ => ([], some e)

/-- The handler loop of event_bus::trigger over fallible handlers: invoke
each handler in order with the argument; a raised exception propagates
immediately (no catch in trigger), skipping the remaining handlers. -/
def invoke_all {E A : Type} : List (Nat × (A → Except E Unit)) → A → Except E Unit
  | [], _ => Except.ok ()
  | (_, h) :: rest, a =>
    match h a with
    | Except.ok _ => invoke_all rest a
    | Except.error e => Except.error e

/-- event_bus::trigger with fallible handlers: dispatch to the current
vector for the event name; the first exception propagates to the caller. -/
def triggerE {E A : Type} (b : event_bus (A → Except E Unit)) (event_name : String)
    (arg : A) : Except E Unit :=
  match lookupKey b.subscribers_ event_name with
  | none => Except.ok ()
  | some handlers => invoke_all handlers arg

/-- Boolean form of the registry invariant: every stored vector is
non-empty (an event name is kept only while it still has handlers). -/
def busInv {H : Type} (b : event_bus H) : Bool :=
  b.subscribers_.all (fun p => !p.2.isEmpty)

/-- Key uniqueness of the registry, as guaranteed by unordered_map. -/
abbrev NodupKeys {β : Type} (m : List (String × β)) : Prop :=
  (m.map Prod.fst).Nodup

/-- Ordering invariant on reachable bus states: within every vector the
subscription ids are strictly increasing (hence listed in subscription
order), and every stored id was allocated below the current counter. -/
def GoodBus {H : Type} (b : event_bus H) : Prop :=
  ∀ k, (idsOf b k).Pairwise (· < ·) ∧ ∀ i ∈ idsOf b k, i < b.next_id_

/-
Concrete states used to evaluate the definitions on small inputs.
-/

/-- A bus with one handler (id 0, payload 5) registered for event x. -/
def busOne : event_bus Nat := ⟨[("x", [(0, 5)])], 1⟩

/-- A bus whose only handler for event evt raises the exception boom. -/
def busRaising : event_bus (Nat → Except String Unit) :=
  ⟨[("evt", [(0, fun _ => Except.error "boom")])], 1⟩

/-- The loop state reached by enqueue_event(t0) followed by the worker
popping t0: the queue is empty again while t0 is still executing. -/
def raceState : loop_state Nat := ⟨[], false, some 0, false, []⟩

/-- A loop state whose worker thread has exited (stop observed with an
empty queue) after completing no tasks. -/
def exitedState : loop_state Nat := ⟨[], true, none, true, []⟩

/-
Lemmas about the association-list registry.
-/

theorem lookupKey_addHandler_self {β : Type} (m : List (String × List β)) (k : String)
    (e : β) : lookupKey (addHandler m k e) k = some ((lookupKey m k).getD [] ++ [e]) := by
  induction m with
  | nil => simp [addHandler, lookupKey]
  | cons hd rest ih =>
    obtain ⟨k', v⟩ := hd
    by_cases hk : k' = k
    · subst hk; simp [addHandler, lookupKey]
    · simp [addHandler, lookupKey, hk, ih]

theorem lookupKey_addHandler_ne {β : Type} (m : List (String × List β)) {k k' : String}
    (e : β) (hne : k' ≠ k) : lookupKey (addHandler m k e) k' = lookupKey m k' := by
  have hne' : ¬(k = k') := fun h => hne h.symm
  induction m with
  | nil => simp [addHandler, lookupKey, hne']
  | cons hd rest ih =>
    obtain ⟨k₀, v⟩ := hd
    by_cases hk : k₀ = k
    · subst hk; simp [addHandler, lookupKey, hne']
    · simp [addHandler, lookupKey, hk, ih]

theorem lookupKey_eraseKey_self {β : Type} (m : List (String × β)) (k : String) :
    lookupKey (eraseKey m k) k = none := by
  induction m with
  | nil => simp [eraseKey, lookupKey]
  | cons hd rest ih =>
    obtain ⟨k₀, v⟩ := hd
    by_cases hk : k₀ = k
    · simp [eraseKey, hk, ih]
    · simp [eraseKey, lookupKey, hk, ih]

theorem lookupKey_eraseKey_ne {β : Type} (m : List (String × β)) {k k' : String}
    (hne : k' ≠ k) : lookupKey (eraseKey m k) k' = lookupKey m k' := by
  have hne' : ¬(k = k') := fun h => hne h.symm
  induction m with
  | nil => simp [eraseKey]
  | cons hd rest ih =>
    obtain ⟨k₀, v⟩ := hd
    by_cases hk : k₀ = k
    · subst hk; simp [eraseKey, lookupKey, hne', ih]
    · simp [eraseKey, lookupKey, hk, ih]

theorem lookupKey_setKey_self {β : Type} (m : List (String × β)) (k : String) (w : β) :
    lookupKey (setKey m k w) k = (lookupKey m k).map (fun _ => w) := by
  induction m with
  | nil => simp [setKey, lookupKey]
  | cons hd rest ih =>
    obtain ⟨k₀, v⟩ := hd
    by_cases hk : k₀ = k
    · subst hk; simp [setKey, lookupKey]
    · simp [setKey, lookupKey, hk, ih]

theorem lookupKey_setKey_ne {β : Type} (m : List (String × β)) {k k' : String} (w : β)
    (hne : k' ≠ k) : lookupKey (setKey m k w) k' = lookupKey m k' := by
  have hne' : ¬(k = k') := fun h => hne h.symm
  induction m with
  | nil => simp [setKey]
  | cons hd rest ih =>
    obtain ⟨k₀, v⟩ := hd
    by_cases hk : k₀ = k
    · subst hk; simp [setKey, lookupKey, hne', ih]
    · simp [setKey, lookupKey, hk, ih]

theorem lookupKey_eq_none_of_not_mem {β : Type} (m : List (String × β)) {k : String}
    (h : k ∉ m.map Prod.fst) : lookupKey m k = none := by
  induction m with
  | nil => simp [lookupKey]
  | cons hd rest ih =>
    obtain ⟨k₀, v⟩ := hd
    simp only [List.map_cons, List.mem_cons] at h
    push_neg at h
    have hk : ¬(k₀ = k) := fun hk => h.1 hk.symm
    simp [lookupKey, hk, ih h.2]

theorem setKey_of_lookup_none {β : Type} (m : List (String × β)) {k : String} (w : β)
    (h : lookupKey m k = none) : setKey m k w = m := by
  induction m with
  | nil => simp [setKey]
  | cons hd rest ih =>
    obtain ⟨k₀, v⟩ := hd
    by_cases hk : k₀ = k
    · simp [lookupKey, hk] at h
    · simp only [lookupKey, hk] at h
      simp [setKey, hk, ih h]

theorem setKey_self {β : Type} (m : List (String × β)) {k : String} {v : β}
    (hnd : NodupKeys m) (h : lookupKey m k = some v) : setKey m k v = m := by
  induction m with
  | nil => simp [lookupKey] at h
  | cons hd rest ih =>
    obtain ⟨k₀, v₀⟩ := hd
    simp only [NodupKeys, List.map_cons, List.nodup_cons] at hnd
    by_cases hk : k₀ = k
    · subst hk
      have hv : v₀ = v := by simpa [lookupKey] using h
      subst hv
      have hnone : lookupKey rest k₀ = none :=
        lookupKey_eq_none_of_not_mem rest hnd.1
      simp [setKey, setKey_of_lookup_none rest v₀ hnone]
    · simp only [lookupKey, hk, if_false] at h
      simp [setKey, hk, ih hnd.2 h]

/-
Basic facts about trigger, trigger_impl and the counter.
-/

theorem trigger_fst {H A : Type} (b : event_bus H) (n : String) (a : A) :
    (trigger b n a).1 = (entriesOf b n).map (fun e => (e, a)) := by
  unfold trigger entriesOf
  cases h : lookupKey b.subscribers_ n <;> simp

theorem trigger_snd {H A : Type} (b : event_bus H) (n : String) (a : A) :
    (trigger b n a).2 = b := by
  unfold trigger
  cases h : lookupKey b.subscribers_ n <;> simp

theorem trigger_impl_snd {H P : Type} (b : event_bus H) (n : String) (p : P) :
    (trigger_impl b n p).2 = b := by
  unfold trigger_impl
  cases h : lookupKey b.subscribers_ n <;> simp

theorem unsubscribe_next_id {H : Type} (b : event_bus H) (n : String) (i : Nat) :
    (unsubscribe b n i).next_id_ = b.next_id_ := by
  unfold unsubscribe
  cases h : lookupKey b.subscribers_ n
  · rfl
  · dsimp only
    split <;> rfl

theorem clear_next_id {H : Type} (b : event_bus H) :
    (clear b).next_id_ = b.next_id_ := rfl

theorem unsubscribe_of_lookup_none {H : Type} {b : event_bus H} {n : String} (i : Nat)
    (hl : lookupKey b.subscribers_ n = none) : unsubscribe b n i = b := by
  unfold unsubscribe
  rw [hl]

theorem unsubscribe_of_filter_empty {H : Type} {b : event_bus H} {n : String} {i : Nat}
    {v : List (Nat × H)} (hl : lookupKey b.subscribers_ n = some v)
    (he : (v.filter (fun p => !(p.1 == i))).isEmpty = true) :
    unsubscribe b n i = { b with subscribers_ := eraseKey b.subscribers_ n } := by
  unfold unsubscribe
  rw [hl]
  simp [he]

theorem unsubscribe_of_filter_nonempty {H : Type} {b : event_bus H} {n : String} {i : Nat}
    {v : List (Nat × H)} (hl : lookupKey b.subscribers_ n = some v)
    (he : (v.filter (fun p => !(p.1 == i))).isEmpty = false) :
    unsubscribe b n i
      = { b with subscribers_ := setKey b.subscribers_ n (v.filter (fun p => !(p.1 == i))) } := by
  unfold unsubscribe
  rw [hl]
  simp [he]

/-
Preservation of the ordering invariant GoodBus along any call sequence.
-/

theorem goodBus_empty {H : Type} : GoodBus (event_bus.empty : event_bus H) := by
  intro k
  simp [idsOf, entriesOf, event_bus.empty, lookupKey]

theorem idsOf_subscribe_self {H : Type} (b : event_bus H) (n : String) (h : H) :
    idsOf (subscribe b n h).2 n = idsOf b n ++ [b.next_id_] := by
  simp [idsOf, entriesOf, subscribe, lookupKey_addHandler_self]

theorem idsOf_subscribe_ne {H : Type} (b : event_bus H) {n k : String} (h : H)
    (hne : k ≠ n) : idsOf (subscribe b n h).2 k = idsOf b k := by
  simp [idsOf, entriesOf, subscribe, lookupKey_addHandler_ne _ _ hne]

theorem goodBus_subscribe {H : Type} (b : event_bus H) (n : String) (hd : H)
    (hg : GoodBus b) : GoodBus (subscribe b n hd).2 := by
  intro k
  have hnext : (subscribe b n hd).2.next_id_ = b.next_id_ + 1 := rfl
  by_cases hk : k = n
  · subst hk
    rw [idsOf_subscribe_self, hnext]
    constructor
    · rw [List.pairwise_append]
      refine ⟨(hg k).1, List.pairwise_singleton _ _, ?_⟩
      intro a ha c hc
      simp only [List.mem_singleton] at hc
      subst hc
      exact (hg k).2 a ha
    · intro i hi
      rcases List.mem_append.mp hi with hi | hi
      · exact Nat.lt_succ_of_lt ((hg k).2 i hi)
      · simp only [List.mem_singleton] at hi
        subst hi
        exact Nat.lt_succ_self _
  · rw [idsOf_subscribe_ne b hd hk, hnext]
    exact ⟨(hg k).1, fun i hi => Nat.lt_succ_of_lt ((hg k).2 i hi)⟩

theorem goodBus_unsubscribe {H : Type} (b : event_bus H) (n : String) (i : Nat)
    (hg : GoodBus b) : GoodBus (unsubscribe b n i) := by
  cases hl : lookupKey b.subscribers_ n with
  | none => rw [unsubscribe_of_lookup_none i hl]; exact hg
  | some v =>
    have hids : idsOf b n = v.map Prod.fst := by simp [idsOf, entriesOf, hl]
    cases he : (v.filter (fun p => !(p.1 == i))).isEmpty with
    | true =>
      rw [unsubscribe_of_filter_empty hl he]
      intro k
      by_cases hk : k = n
      · subst hk
        simp [idsOf, entriesOf, lookupKey_eraseKey_self]
      · have : lookupKey (eraseKey b.subscribers_ n) k = lookupKey b.subscribers_ k :=
          lookupKey_eraseKey_ne _ hk
        simp only [idsOf, entriesOf, this]
        exact hg k
    | false =>
      rw [unsubscribe_of_filter_nonempty hl he]
      intro k
      by_cases hk : k = n
      · subst hk
        have hsub : List.Sublist ((v.filter (fun p => !(p.1 == i))).map Prod.fst)
            (v.map Prod.fst) := (List.filter_sublist v).map Prod.fst
        constructor
        · have : idsOf
              { b with subscribers_ := setKey b.subscribers_ k (v.filter (fun p => !(p.1 == i))) } k
              = (v.filter (fun p => !(p.1 == i))).map Prod.fst := by
            simp [idsOf, entriesOf, lookupKey_setKey_self, hl]
          rw [this]
          exact ((hids ▸ (hg k).1)).sublist hsub
        · intro j hj
          have : idsOf
              { b with subscribers_ := setKey b.subscribers_ k (v.filter (fun p => !(p.1 == i))) } k
              = (v.filter (fun p => !(p.1 == i))).map Prod.fst := by
            simp [idsOf, entriesOf, lookupKey_setKey_self, hl]
          rw [this] at hj
          have hj' : j ∈ v.map Prod.fst := hsub.subset hj
          exact (hg k).2 j (hids ▸ hj')
      · have : lookupKey (setKey b.subscribers_ n (v.filter (fun p => !(p.1 == i)))) k
            = lookupKey b.subscribers_ k := lookupKey_setKey_ne _ _ hk
        simp only [idsOf, entriesOf, this]
        exact hg k

theorem goodBus_clear {H : Type} (b : event_bus H) : GoodBus (clear b) := by
  intro k
  simp [idsOf, entriesOf, clear, lookupKey]

theorem goodBus_applyOp {H A : Type} (b : event_bus H) (op : Op H A)
    (hg : GoodBus b) : GoodBus (applyOp b op) := by
  cases op with
  | subscribeOp n h => exact goodBus_subscribe b n h hg
  | unsubscribeOp n i => exact goodBus_unsubscribe b n i hg
  | triggerOp n a => rw [applyOp, trigger_snd]; exact hg
  | clearOp => exact goodBus_clear b

theorem goodBus_applyOps {H A : Type} (b : event_bus H) (ops : List (Op H A))
    (hg : GoodBus b) : GoodBus (applyOps b ops) := by
  induction ops generalizing b with
  | nil => exact hg
  | cons op rest ih => exact ih (applyOp b op) (goodBus_applyOp b op hg)

/-- C2: after any sequence of bus operations starting from a fresh bus, a
trigger on an event name invokes exactly the handler entries currently
registered for that name, in registry (= subscription) order, passing the
same argument to each; and the ids along any vector are strictly
increasing, so that order is subscription (insertion) order. -/
theorem trigger_invokes_current_subscribers {H A : Type} (ops : List (Op H A))
    (name : String) (arg : A) :
    (trigger (applyOps event_bus.empty ops) name arg).1
      = (entriesOf (applyOps event_bus.empty ops) name).map (fun e => (e, arg))
    ∧ (idsOf (applyOps event_bus.empty ops) name).Pairwise (· < ·) :=
  ⟨trigger_fst _ _ _, (goodBus_applyOps _ ops goodBus_empty name).1⟩

theorem issuedIds_eq {H A : Type} (ops : List (Op H A)) (b : event_bus H) :
    issuedIds b ops = (List.range (subCount ops)).map (fun k => b.next_id_ + k) := by
  induction ops generalizing b with
  | nil => simp [issuedIds, subCount]
  | cons op rest ih =>
    cases op with
    | subscribeOp n h =>
      have hs : (applyOp b (Op.subscribeOp (A := A) n h)).next_id_ = b.next_id_ + 1 := rfl
      simp only [issuedIds, subCount]
      rw [ih, hs]
      rw [Nat.add_comm 1 (subCount rest), List.range_succ_eq_map]
      simp only [List.map_cons, List.map_map, Nat.add_zero]
      congr 1
      apply List.map_congr_left
      intro k _
      simp only [Function.comp]
      omega
    | unsubscribeOp n i =>
      simp only [issuedIds, subCount]
      rw [ih]
      simp [applyOp, unsubscribe_next_id]
    | triggerOp n a =>
      simp only [issuedIds, subCount]
      rw [ih]
      simp [applyOp, trigger_snd]
    | clearOp =>
      simp only [issuedIds, subCount]
      rw [ih]
      simp [applyOp, clear]

/-- C4: along any sequence of operations on one fresh bus, the subscribe
calls return exactly the ids 0, 1, 2, ... in call order (the per-bus
counter starts at 0 and only moves forward), so every subscribe returns an
id strictly greater than all previously returned ids and no id is ever
reused, regardless of interleaved unsubscribe and clear calls. -/
theorem subscription_ids_monotonic {H A : Type} (ops : List (Op H A)) :
    issuedIds (event_bus.empty : event_bus H) ops = List.range (subCount ops)
    ∧ (issuedIds (event_bus.empty : event_bus H) ops).Pairwise (· < ·) := by
  have h := issuedIds_eq ops (event_bus.empty : event_bus H)
  have h0 : (List.range (subCount ops)).map
      (fun k => (event_bus.empty : event_bus H).next_id_ + k) = List.range (subCount ops) := by
    simp [event_bus.empty]
  refine ⟨?_, ?_⟩
  · rw [h, h0]
  · rw [h, h0]
    exact List.pairwise_lt_range _

/-- C7: a trigger on an event name with no subscribers, an unsubscribe on
an event name not in the registry, and an unsubscribe whose id is not
registered under a present name are all silent no-ops: each returns
normally and leaves the bus state exactly as it was (no entry added or
removed, counter untouched). -/
theorem unknown_inputs_are_noops {H A : Type} (b : event_bus H) (n : String) (i : Nat)
    (a : A) (hnd : NodupKeys b.subscribers_) :
    (lookupKey b.subscribers_ n = none → trigger b n a = (([] : List ((Nat × H) × A)), b))
    ∧ (lookupKey b.subscribers_ n = none → unsubscribe b n i = b)
    ∧ (∀ v, lookupKey b.subscribers_ n = some v → v ≠ [] →
        i ∉ v.map Prod.fst → unsubscribe b n i = b) := by
  refine ⟨?_, ?_, ?_⟩
  · intro hl
    unfold trigger
    rw [hl]
  · intro hl
    exact unsubscribe_of_lookup_none i hl
  · intro v hl hv hi
    have hfilter : v.filter (fun p => !(p.1 == i)) = v := by
      apply List.filter_eq_self.mpr
      intro p hp
      have hpi : p.1 ≠ i := fun he => hi (he ▸ List.mem_map_of_mem Prod.fst hp)
      simp [hpi]
    have he : (v.filter (fun p => !(p.1 == i))).isEmpty = false := by
      rw [hfilter]
      cases v with
      | nil => exact absurd rfl hv
      | cons x xs => rfl
    rw [unsubscribe_of_filter_nonempty hl he, hfilter, setKey_self b.subscribers_ hnd hl]

/-- C7 witness: the no-op facts evaluated on the concrete bus busOne, which
has one handler (id 0) under event x: a trigger on the absent event y, and
an unsubscribe of the never-issued id 7 under x, both leave busOne as is. -/
theorem unknown_inputs_are_noops_witness :
    trigger busOne "y" (3 : Nat) = ([], busOne) ∧ unsubscribe busOne "x" 7 = busOne := by
  refine ⟨(unknown_inputs_are_noops busOne "y" 7 (3 : Nat) (by decide)).1 (by decide), ?_⟩
  exact (unknown_inputs_are_noops busOne "x" 7 (3 : Nat) (by decide)).2.2
    [(0, 5)] (by decide) (by decide) (by decide)

theorem all_nonempty_addHandler {β : Type} (m : List (String × List β)) (k : String)
    (e : β) (h : m.all (fun p => !p.2.isEmpty) = true) :
    (addHandler m k e).all (fun p => !p.2.isEmpty) = true := by
  induction m with
  | nil => simp [addHandler]
  | cons hd rest ih =>
    obtain ⟨k₀, v⟩ := hd
    simp only [List.all_cons, Bool.and_eq_true] at h
    by_cases hk : k₀ = k
    · subst hk
      have hne : (v ++ [e]).isEmpty = false := by cases v <;> rfl
      simp [addHandler, hne, h.2]
    · simp [addHandler, hk, h.1, ih h.2]

theorem all_nonempty_eraseKey {β : Type} (m : List (String × List β)) (k : String)
    (h : m.all (fun p => !p.2.isEmpty) = true) :
    (eraseKey m k).all (fun p => !p.2.isEmpty) = true := by
  induction m with
  | nil => simp [eraseKey]
  | cons hd rest ih =>
    obtain ⟨k₀, v⟩ := hd
    simp only [List.all_cons, Bool.and_eq_true] at h
    by_cases hk : k₀ = k
    · simp [eraseKey, hk, ih h.2]
    · simp [eraseKey, hk, h.1, ih h.2]

theorem all_nonempty_setKey {β : Type} (m : List (String × List β)) (k : String)
    (w : List β) (h : m.all (fun p => !p.2.isEmpty) = true) (hw : w.isEmpty = false) :
    (setKey m k w).all (fun p => !p.2.isEmpty) = true := by
  induction m with
  | nil => simp [setKey]
  | cons hd rest ih =>
    obtain ⟨k₀, v⟩ := hd
    simp only [List.all_cons, Bool.and_eq_true] at h
    by_cases hk : k₀ = k
    · simp [setKey, hk, hw, ih h.2]
    · simp [setKey, hk, h.1, ih h.2]

/-- C8: every bus operation preserves the registry invariant that every
stored event name carries a non-empty handler vector, and the unsubscribe
that empties a vector drops the event name in that same call: after it,
the name is no longer present in the registry. -/
theorem registry_invariant_preserved {H A : Type} (b : event_bus H) (n : String) (hd : H)
    (i : Nat) (a : A) (h : busInv b = true) :
    busInv (subscribe b n hd).2 = true
    ∧ busInv (unsubscribe b n i) = true
    ∧ busInv (trigger b n a).2 = true
    ∧ busInv (clear b) = true
    ∧ (∀ v, lookupKey b.subscribers_ n = some v →
        (v.filter (fun p => !(p.1 == i))).isEmpty = true →
        lookupKey (unsubscribe b n i).subscribers_ n = none) := by
  refine ⟨?_, ?_, ?_, ?_, ?_⟩
  · exact all_nonempty_addHandler b.subscribers_ n (b.next_id_, hd) h
  · cases hl : lookupKey b.subscribers_ n with
    | none => rw [unsubscribe_of_lookup_none i hl]; exact h
    | some v =>
      cases he : (v.filter (fun p => !(p.1 == i))).isEmpty with
      | true =>
        rw [unsubscribe_of_filter_empty hl he]
        exact all_nonempty_eraseKey b.subscribers_ n h
      | false =>
        rw [unsubscribe_of_filter_nonempty hl he]
        exact all_nonempty_setKey b.subscribers_ n _ h he
  · rw [trigger_snd]; exact h
  · rfl
  · intro v hl he
    rw [unsubscribe_of_filter_empty hl he]
    exact lookupKey_eraseKey_self b.subscribers_ n

/-- C8 witness: evaluated on the concrete bus busOne: the invariant holds,
survives a subscribe, and unsubscribing the last handler of event x
removes the name x from the registry immediately. -/
theorem registry_invariant_preserved_witness :
    busInv busOne = true
    ∧ busInv (subscribe busOne "x" 9).2 = true
    ∧ lookupKey (unsubscribe busOne "x" 0).subscribers_ "x" = none := by
  have h := registry_invariant_preserved busOne "x" 9 0 (0 : Nat) (by decide)
  exact ⟨by decide, h.1, h.2.2.2.2 [(0, 5)] (by decide) (by decide)⟩

/-- C9: trigger and trigger_impl are pure reads: the whole bus state
(registry and id counter) after either call equals the state before it. -/
theorem trigger_leaves_state_unchanged {H A P : Type} (b : event_bus H) (n : String)
    (a : A) (p : P) :
    (trigger b n a).2 = b ∧ (trigger_impl b n p).2 = b :=
  ⟨trigger_snd b n a, trigger_impl_snd b n p⟩

/-- C1, code behavior at the failing input: enqueue one task and let the
worker pop it.  The reached state raceState has an empty queue while the
task is still executing, so the predicate wait_until_finished waits on is
already true and the call returns, yet no enqueued task has completed. -/
theorem wait_returns_with_task_incomplete :
    applyActs (initState Nat) [act.enqueue_event 0, act.worker_dequeue] = some raceState
    ∧ wait_pred raceState = true
    ∧ raceState.executed_ = [] :=
  ⟨rfl, rfl, rfl⟩

/-- C3, code behavior at the failing input: process_event_loop has no
try/catch around the event_task() call, so a task that raises ends the
worker with no later task executed (first conjunct: of the queue with
raising task 0 and normal task 1, nothing completes and the exception
escapes); a direct trigger propagates the handler exception synchronously
to the caller (second conjunct). -/
theorem handler_exception_kills_worker :
    process_tasks [(0, (Except.error "boom" : Except String Unit)), (1, Except.ok ())]
      = ([], some "boom")
    ∧ triggerE busRaising "evt" 3 = Except.error "boom" :=
  ⟨rfl, rfl⟩

/-- C5: from any state in which stop has been requested and the worker sits
between iterations, the drain schedule executes every queued task in order
and the worker then exits; once the worker has exited neither a dequeue
nor a task execution step is enabled; and the exit step is enabled exactly
when the stop flag is set and the queue is empty. -/
theorem stop_drains_all_tasks {T : Type} (q e : List T) :
    applyActs (⟨q, true, none, false, e⟩ : loop_state T) (drainActs q)
      = some ⟨[], true, none, true, e ++ q⟩
    ∧ (∀ s : loop_state T, s.worker_exited_ = true →
        applyAct s act.worker_dequeue = none ∧ applyAct s act.worker_run_task = none)
    ∧ (∀ s : loop_state T, s.worker_exited_ = false → s.executing_ = none →
        ((applyAct s act.worker_exit).isSome
          ↔ (s.stop_flag_ = true ∧ s.async_event_queue_ = []))) := by
  refine ⟨?_, ?_, ?_⟩
  · induction q generalizing e with
    | nil => simp [drainActs, applyActs, applyAct]
    | cons t rest ih =>
      have h1 : applyAct (⟨t :: rest, true, none, false, e⟩ : loop_state T) act.worker_dequeue
          = some ⟨rest, true, some t, false, e⟩ := rfl
      have h2 : applyAct (⟨rest, true, some t, false, e⟩ : loop_state T) act.worker_run_task
          = some ⟨rest, true, none, false, e ++ [t]⟩ := rfl
      calc applyActs (⟨t :: rest, true, none, false, e⟩ : loop_state T) (drainActs (t :: rest))
          = applyActs (⟨rest, true, none, false, e ++ [t]⟩ : loop_state T) (drainActs rest) := by
            simp [drainActs, applyActs, h1, h2]
        _ = some ⟨[], true, none, true, (e ++ [t]) ++ rest⟩ := ih (e ++ [t])
        _ = some ⟨[], true, none, true, e ++ t :: rest⟩ := by simp
  · intro s hs
    constructor <;> simp [applyAct, hs]
  · intro s hw he
    cases hf : s.stop_flag_ <;> cases hq : s.async_event_queue_ <;>
      simp [applyAct, hw, he, hf, hq]

/-- C5 witness: with tasks 1 and 2 queued at stop time, the worker executes
both in enqueue order and exits, evaluated concretely; and in the exited
state no dequeue step is enabled. -/
theorem stop_drains_all_tasks_witness :
    applyActs (⟨[1, 2], true, none, false, []⟩ : loop_state Nat) (drainActs [1, 2])
      = some ⟨[], true, none, true, [1, 2]⟩
    ∧ applyAct exitedState act.worker_dequeue = none := by
  refine ⟨(stop_drains_all_tasks [1, 2] []).1, ?_⟩
  exact ((stop_drains_all_tasks ([] : List Nat) []).2.1 exitedState rfl).1

theorem applyAct_taskLine {T : Type} (s s' : loop_state T) (a : act T)
    (h : applyAct s a = some s') : taskLine s' = taskLine s ++ enqueuedOf [a] := by
  obtain ⟨q, fl, ex, wx, done⟩ := s
  cases a with
  | enqueue_event t =>
    simp only [applyAct] at h
    have hs' := Option.some.inj h
    subst hs'
    simp [taskLine, enqueuedOf]
  | stop =>
    simp only [applyAct] at h
    have hs' := Option.some.inj h
    subst hs'
    simp [taskLine, enqueuedOf]
  | worker_dequeue =>
    cases wx with
    | true => simp [applyAct] at h
    | false =>
      cases ex with
      | some u => simp [applyAct] at h
      | none =>
        cases q with
        | nil => simp [applyAct] at h
        | cons t rest =>
          simp only [applyAct] at h
          have hs' := Option.some.inj h
          subst hs'
          simp [taskLine, enqueuedOf]
  | worker_run_task =>
    cases wx with
    | true => simp [applyAct] at h
    | false =>
      cases ex with
      | none => simp [applyAct] at h
      | some u =>
        simp only [applyAct] at h
        have hs' := Option.some.inj h
        subst hs'
        simp [taskLine, enqueuedOf]
  | worker_exit =>
    cases wx with
    | true => simp [applyAct] at h
    | false =>
      cases ex with
      | some u => simp [applyAct] at h
      | none =>
        cases hc : (fl && q.isEmpty) with
        | false => simp [applyAct, hc] at h
        | true =>
          simp only [applyAct, hc, if_true] at h
          have hs' := Option.some.inj h
          subst hs'
          simp [taskLine, enqueuedOf]

theorem applyActs_taskLine {T : Type} (acts : List (act T)) :
    ∀ s s', applyActs s acts = some s' → taskLine s' = taskLine s ++ enqueuedOf acts := by
  induction acts with
  | nil =>
    intro s s' h
    simp only [applyActs] at h
    have hs' := Option.some.inj h
    subst hs'
    simp [enqueuedOf]
  | cons a rest ih =>
    intro s s' h
    simp only [applyActs] at h
    cases ha : applyAct s a with
    | none => rw [ha] at h; exact Option.noConfusion h
    | some s₁ =>
      rw [ha] at h
      have h1 := applyAct_taskLine s s₁ a ha
      have h2 := ih s₁ s' h
      rw [h2, h1]
      cases a <;> simp [enqueuedOf]

/-- C6: every reachable loop state decomposes the tasks enqueued so far, in
enqueue order, as completed tasks, then the one task being executed (the
executing slot holds at most one task: execution is serialized on the
single worker), then the queue; hence the completed tasks always form a
prefix of the enqueue order, which is strict FIFO execution. -/
theorem tasks_execute_in_fifo_order {T : Type} (acts : List (act T)) (s : loop_state T)
    (h : applyActs (initState T) acts = some s) :
    s.executed_ ++ s.executing_.toList ++ s.async_event_queue_ = enqueuedOf acts
    ∧ ∃ rest, enqueuedOf acts = s.executed_ ++ rest := by
  have ht := applyActs_taskLine acts (initState T) s h
  have h0 : taskLine (initState T) = ([] : List T) := rfl
  rw [h0] at ht
  simp only [List.nil_append] at ht
  refine ⟨ht, ⟨s.executing_.toList ++ s.async_event_queue_, ?_⟩⟩
  rw [← ht]
  simp [taskLine, List.append_assoc]

/-- C6 witness: after enqueueing tasks 1 and 2 and the worker completing
the first, the enqueue order is 1, 2 and the completed list 1 is a prefix
of it, evaluated concretely. -/
theorem tasks_execute_in_fifo_order_witness :
    enqueuedOf [act.enqueue_event 1, act.enqueue_event 2, act.worker_dequeue,
      act.worker_run_task] = ([1, 2] : List Nat)
    ∧ ∃ rest, ([1, 2] : List Nat) = [1] ++ rest := by
  have h := tasks_execute_in_fifo_order
    [act.enqueue_event 1, act.enqueue_event 2, act.worker_dequeue, act.worker_run_task]
    (⟨[2], false, none, false, [1]⟩ : loop_state Nat) rfl
  exact ⟨h.1.symm, h.2⟩

theorem exited_worker_frozen {T : Type} (acts : List (act T)) :
    ∀ s s', s.worker_exited_ = true → applyActs s acts = some s' →
      s'.executed_ = s.executed_ ∧ s'.worker_exited_ = true := by
  induction acts with
  | nil =>
    intro s s' hw h
    simp only [applyActs] at h
    have hs' := Option.some.inj h
    subst hs'
    exact ⟨rfl, hw⟩
  | cons a rest ih =>
    intro s s' hw h
    simp only [applyActs] at h
    cases a with
    | enqueue_event t =>
      exact ih { s with async_event_queue_ := s.async_event_queue_ ++ [t] } s' hw h
    | stop =>
      exact ih { s with stop_flag_ := true } s' hw h
    | worker_dequeue =>
      have ha : applyAct s act.worker_dequeue = none := by simp [applyAct, hw]
      rw [ha] at h
      exact Option.noConfusion h
    | worker_run_task =>
      have ha : applyAct s act.worker_run_task = none := by simp [applyAct, hw]
      rw [ha] at h
      exact Option.noConfusion h
    | worker_exit =>
      have ha : applyAct s act.worker_exit = none := by simp [applyAct, hw]
      rw [ha] at h
      exact Option.noConfusion h

/-- C10: enqueue_event is never rejected: in every loop state, stopped or
not, it appends the task at the tail of the queue and succeeds.  But once
the worker has exited (stop flag observed with an empty queue), no further
action sequence changes the completed-task list, so a task enqueued after
the worker exit is never executed. -/
theorem enqueue_never_rejected {T : Type} (s : loop_state T) (t : T) :
    applyAct s (act.enqueue_event t)
      = some { s with async_event_queue_ := s.async_event_queue_ ++ [t] }
    ∧ (∀ acts s', s.worker_exited_ = true → applyActs s acts = some s' →
        s'.executed_ = s.executed_ ∧ s'.worker_exited_ = true)
    ∧ (∀ acts s', s.worker_exited_ = true → t ∉ s.executed_ →
        applyActs { s with async_event_queue_ := s.async_event_queue_ ++ [t] } acts
          = some s' →
        t ∉ s'.executed_) := by
  refine ⟨rfl, ?_, ?_⟩
  · intro acts s' hw h
    exact exited_worker_frozen acts s s' hw h
  · intro acts s' hw ht h
    have hf := exited_worker_frozen acts _ s' (by simpa using hw) h
    rw [hf.1]
    simpa using ht

/-- C10 witness: in the exited state exitedState, enqueueing task 7 still
appends it to the queue, and after further actions it is still never in
the completed list, evaluated concretely. -/
theorem enqueue_never_rejected_witness :
    applyAct exitedState (act.enqueue_event 7)
      = some (⟨[7], true, none, true, []⟩ : loop_state Nat)
    ∧ (7 : Nat) ∉ ([] : List Nat) := by
  have h := enqueue_never_rejected exitedState 7
  refine ⟨h.1, ?_⟩
  exact h.2.2 [act.stop] (⟨[7], true, none, true, []⟩ : loop_state Nat) rfl (by decide) rfl

end Microbus
